import Mathlib

/-!
Shallow embedding of the retrieval pipeline of the AskMyDoc RAG application
(source files: src/App.tsx, src/services/vectorDb.ts, src/services/geminiService.ts,
src/constants.ts, src/types.ts).

Modelling conventions:
* JavaScript numbers are modelled as rationals (ℚ).  `Math.sqrt`, an external
  floating-point primitive, is abstracted as a function parameter
  `sqrt : ℚ → ℚ`; statements that rely on properties of the square root take
  them as explicit hypotheses on that parameter.
* Text is modelled as `String` (for the pipeline) or `List Char` (for the
  character-window chunker, where `fullText.substring(i, i + size)` becomes
  `(text.drop i).take size`).
* JavaScript `for` loops are modelled by structural recursion on an explicit
  iteration bound (`fuel`).  Every use instantiates the bound with a value
  that provably suffices for the loop as written, so the fuelled function
  agrees with the source loop whenever the source loop terminates; the one
  source loop that can fail to terminate (the chunking loop when
  `CHUNK_SIZE - CHUNK_OVERLAP ≤ 0`, see `chunkLoopNext`) is modelled by its
  small-step transition function directly.
* `ECMAScript Array.prototype.sort` is specified to be stable, and the
  comparator `(a, b) => b.similarity - a.similarity` is consistent on ℚ, so
  the sorted result is the unique stable descending permutation; it is
  modelled by a stable insertion sort (`sortBySimDesc`).
* The external embedding adapter is modelled by an oracle parameter
  `api : List String → List (List ℚ)` giving the raw vector list the API
  response carries; `generateEmbeddings` adds the length check of
  src/services/geminiService.ts.  The `catch`/`handleError` wrapper rethrows
  the mismatch error as its generic batch-failure message (the mismatch
  message does not contain `RESOURCE_EXHAUSTED`), which is what the caller
  observes; the surfaced message is modelled directly.
-/

namespace RagApp

/-- src/types.ts: `DocumentChunk { id, text, embedding }`. -/
structure DocumentChunk where
  id : ℕ
  text : String
  embedding : List ℚ
deriving DecidableEq

/-- src/constants.ts: `CHUNK_SIZE = 1000` (characters). -/
def CHUNK_SIZE : ℕ := 1000

/-- src/constants.ts: `CHUNK_OVERLAP = 200` (characters). -/
def CHUNK_OVERLAP : ℕ := 200

/-- src/App.tsx: `API_BATCH_SIZE = 50`. -/
def API_BATCH_SIZE : ℕ := 50

/-- The `dotProduct` accumulator of `cosineSimilarity`
(src/services/vectorDb.ts, lines 34-42): `Σ vecA[i] * vecB[i]`. -/
def dotProduct (vecA vecB : List ℚ) : ℚ :=
  ((vecA.zip vecB).map fun p => p.1 * p.2).sum

/-- The `magA`/`magB` accumulators of `cosineSimilarity` before the square
root: `Σ v[i] * v[i]`. -/
def sumSq (v : List ℚ) : ℚ :=
  (v.map fun x => x * x).sum

/-- src/services/vectorDb.ts, `cosineSimilarity` (lines 26-52): mismatched
lengths return `-1`; then `magA = Math.sqrt (Σ a_i²)`, `magB = Math.sqrt (Σ b_i²)`;
if either is `0` the result is `0`; otherwise `dot / (magA * magB)`.
The local bindings `magA`/`magB` are inlined; the accumulation loop runs over
`vecA`'s indices, which equal `vecB`'s in the branch where it is reached. -/
def cosineSimilarity (sqrt : ℚ → ℚ) (vecA vecB : List ℚ) : ℚ :=
  if vecA.length ≠ vecB.length then -1
  else if sqrt (sumSq vecA) = 0 ∨ sqrt (sumSq vecB) = 0 then 0
  else dotProduct vecA vecB / (sqrt (sumSq vecA) * sqrt (sumSq vecB))

/-- The magnitude `Math.sqrt (Σ v[i]²)` computed by `cosineSimilarity`. -/
def magnitude (sqrt : ℚ → ℚ) (v : List ℚ) : ℚ := sqrt (sumSq v)

/-- Stable insertion of one `{chunk, similarity}` pair into a list already
sorted by descending similarity: the new element passes an element only when
that element's similarity is strictly greater.  Together with `sortBySimDesc`
this realises the unique stable result of
`similarities.sort((a, b) => b.similarity - a.similarity)`
(src/services/vectorDb.ts, line 21). -/
def insertBySim (x : DocumentChunk × ℚ) : List (DocumentChunk × ℚ) → List (DocumentChunk × ℚ)
  | [] => [x]
  | y :: ys => if x.2 < y.2 then y :: insertBySim x ys else x :: y :: ys

/-- Stable sort by descending similarity; see `insertBySim`. -/
def sortBySimDesc : List (DocumentChunk × ℚ) → List (DocumentChunk × ℚ)
  | [] => []
  | x :: xs => insertBySim x (sortBySimDesc xs)

/-- src/services/vectorDb.ts, `search` (lines 11-24): empty store returns `[]`;
otherwise map every stored chunk to its similarity with the query, sort by
descending similarity (stable), take the first `topK` (`slice(0, topK)`), and
return the chunks. -/
def search (sqrt : ℚ → ℚ) (chunks : List DocumentChunk) (queryEmbedding : List ℚ)
    (topK : ℕ) : List DocumentChunk :=
  if chunks.length = 0 then []
  else
    ((sortBySimDesc
        (chunks.map fun c => (c, cosineSimilarity sqrt queryEmbedding c.embedding))).take
      topK).map Prod.fst

/-- src/services/vectorDb.ts: the class state is the private `chunks` array. -/
structure InMemoryVectorDB where
  chunks : List DocumentChunk
deriving DecidableEq

/-- `add(newChunks)`: `this.chunks.push(...newChunks)`. -/
def InMemoryVectorDB.add (db : InMemoryVectorDB) (newChunks : List DocumentChunk) :
    InMemoryVectorDB :=
  ⟨db.chunks ++ newChunks⟩

/-- The `search` method as a state transformer.  Its body reads `this.chunks`,
builds the fresh `similarities` array with `map`, sorts that fresh array
(`sort` mutates its receiver, which here is the local array, never
`this.chunks`), and slices; it performs no assignment to `this.chunks`, so the
resulting state is the input state. -/
def InMemoryVectorDB.searchM (sqrt : ℚ → ℚ) (db : InMemoryVectorDB) (q : List ℚ)
    (topK : ℕ) : List DocumentChunk × InMemoryVectorDB :=
  (search sqrt db.chunks q topK, db)

/-- `reset()`: `this.chunks = []`. -/
def InMemoryVectorDB.reset (_db : InMemoryVectorDB) : InMemoryVectorDB := ⟨[]⟩

/-- `isReady()`: `this.chunks.length > 0`. -/
def InMemoryVectorDB.isReady (db : InMemoryVectorDB) : Bool :=
  decide (0 < db.chunks.length)

/-- The task-type tag passed to the embedding adapter
(src/services/geminiService.ts). -/
inductive TaskType
  | RETRIEVAL_DOCUMENT
  | RETRIEVAL_QUERY
deriving DecidableEq

/-- The fixed separator `'\n---\n'` used by `handleSendMessage`
(src/App.tsx, line 192). -/
def CONTEXT_SEPARATOR : String := "\n---\n"

/-- The retrieval part of `handleSendMessage` (src/App.tsx, lines 190-192):
embed the question with task type `RETRIEVAL_QUERY`, search the index with
`topK = 5`, and join the returned chunks' texts with the fixed separator.
The single-text adapter is the oracle parameter `embedOne`. -/
def answerContext (sqrt : ℚ → ℚ) (embedOne : String → TaskType → List ℚ)
    (db : InMemoryVectorDB) (question : String) : String :=
  let queryEmbedding := embedOne question TaskType.RETRIEVAL_QUERY
  let contextChunks := search sqrt db.chunks queryEmbedding 5
  String.intercalate CONTEXT_SEPARATOR (contextChunks.map DocumentChunk.text)

/-- The chunking loop of `handleFileChange` (src/App.tsx, lines 56-59):
`for (let i = 0; i < fullText.length; i += size - overlap)
   rawChunks.push(fullText.substring(i, i + size))`,
as structural recursion on an iteration bound.  With stride `step ≥ 1` a
bound of `text.length` iterations suffices (the index grows by at least one
per iteration), so `rawChunks` below agrees with the source loop for every
`size > overlap`. -/
def rawChunksAux (text : List Char) (size step : ℕ) : ℕ → ℕ → List (List Char)
  | 0, _ => []
  | fuel + 1, i =>
    if i < text.length then ((text.drop i).take size) :: rawChunksAux text size step fuel (i + step)
    else []

/-- The raw chunk list produced by the loop of src/App.tsx lines 56-59, with
the source's stride `CHUNK_SIZE - CHUNK_OVERLAP` generalised to
`size - overlap`. -/
def rawChunks (text : List Char) (size overlap : ℕ) : List (List Char) :=
  rawChunksAux text size (size - overlap) text.length 0

/-- Re-joining chunks with a known overlap: the first chunk whole, each later
chunk with its first `overlap` characters dropped. -/
def overlapJoin (overlap : ℕ) : List (List Char) → List Char
  | [] => []
  | c :: cs => c ++ (cs.map (List.drop overlap)).flatten

/-- One iteration of the chunking loop of src/App.tsx lines 57-59, as a
small-step transition on the loop state: `some i` means control is at the
loop head with index `i`, `none` means the loop has exited.  The loop body
only pushes a substring — it contains no validation and no error path — so
an execution of the loop is exactly an iteration of this function. -/
def chunkLoopNext (textLen step : ℕ) : Option ℕ → Option ℕ
  | none => none
  | some i => if i < textLen then some (i + step) else none

/-- The post-filter of src/App.tsx line 61:
`rawChunks.filter(c => c.trim().length > 0)`.  A trimmed string has nonzero
length exactly when the string contains a non-whitespace character, so the
predicate is modelled directly on the character list. -/
def keepChunk (c : String) : Bool := c.data.any fun ch => !ch.isWhitespace

/-- The error message surfaced by `generateEmbeddings` on a count mismatch:
the body throws `"Mismatch between number of texts and embeddings received."`,
the `catch` passes it to `handleError`, and — the message not containing
`RESOURCE_EXHAUSTED` — `handleError` rethrows this generic message
(src/services/geminiService.ts, lines 11-17 and 73-75). -/
def FAILED_BATCH_MSG : String :=
  "Failed to generate batch embeddings. Please check the console for details."

/-- src/services/geminiService.ts, `generateEmbeddings` (lines 57-77): the raw
response vectors are `api texts`; if their count equals the input count they
are returned, otherwise the call fails (see `FAILED_BATCH_MSG`). -/
def generateEmbeddings (api : List String → List (List ℚ)) (texts : List String) :
    Except String (List (List ℚ)) :=
  let embeddings := api texts
  if embeddings.length = texts.length then Except.ok embeddings
  else Except.error FAILED_BATCH_MSG

/-- src/App.tsx, lines 72-76: one batch's `DocumentChunk` records,
`{ id: i + index, text, embedding: batchEmbeddings[index] }` — with equal
counts, indexing `batchEmbeddings[index]` is pairing, i.e. `zip`. -/
def mkEmbedded (i : ℕ) (batch : List String) (embs : List (List ℚ)) : List DocumentChunk :=
  (batch.zip embs).enum.map fun p => ⟨i + p.1, p.2.1, p.2.2⟩

/-- The observable trace of one ingestion run's embedding phase: the segments
added to the vector index, the adapter calls issued (each the batch's texts),
the progress percentages emitted, and the outcome (`none` = success,
`some msg` = the thrown message). -/
structure IngestRun where
  db : List DocumentChunk
  calls : List (List String)
  progress : List ℤ
  outcome : Option String
deriving DecidableEq

/-- src/App.tsx, lines 82-85: the per-batch progress percentage
`15 + Math.round((processedCount / chunks.length) * 85)`. -/
def batchPct (total processed : ℕ) : ℤ :=
  15 + round ((processed : ℚ) / (total : ℚ) * 85)

/-- The batch loop of `handleFileChange` (src/App.tsx, lines 67-91):
take the next `B` chunks, call the adapter once; on failure the thrown error
aborts the loop (no segment of the batch added, no further call, no progress
emitted for it); on success append the batch's embedded chunks to the index,
emit a progress value, and continue at offset `i + batch.length`.  `total` is
`chunks.length` of the full run; `fuel` bounds the remaining iterations. -/
def ingestLoopAux (api : List String → List (List ℚ)) (B total : ℕ) :
    ℕ → List String → ℕ → IngestRun
  | _, [], _ => ⟨[], [], [], none⟩
  | 0, _ :: _, _ => ⟨[], [], [], none⟩
  | fuel + 1, c :: rest, i =>
    let batch := (c :: rest).take B
    match generateEmbeddings api batch with
    | Except.error e => ⟨[], [batch], [], some e⟩
    | Except.ok embs =>
      let r := ingestLoopAux api B total fuel ((c :: rest).drop B) (i + batch.length)
      ⟨mkEmbedded i batch embs ++ r.db, batch :: r.calls,
        batchPct total (i + batch.length) :: r.progress, r.outcome⟩

/-- The embedding phase of one ingestion run over the filtered chunk list
(the vector index was `reset()` just before, so `db` is the final index
content). -/
def ingest (api : List String → List (List ℚ)) (B : ℕ) (chunks : List String) : IngestRun :=
  ingestLoopAux api B chunks.length chunks.length chunks 0

/-- src/App.tsx, line 53: the extraction-phase progress value for page `i` of
`numPages`: `Math.round((i / pdf.numPages) * 15)`. -/
def pagePct (numPages i : ℕ) : ℤ :=
  round ((i : ℚ) / (numPages : ℚ) * 15)

/-- The extraction-phase progress values, pages `1 .. numPages` in order. -/
def pagePercentages (numPages : ℕ) : List ℤ :=
  (List.range numPages).map fun i => pagePct numPages (i + 1)

/-- The full sequence of progress percentages emitted by one run of
`handleFileChange` (src/App.tsx, lines 45-93): the initial `0`
(`Reading PDF...`), the per-page extraction values, the per-batch values, and
— only when every batch succeeded — the final `100`
(`Processing complete!`). -/
def runProgress (api : List String → List (List ℚ)) (B numPages : ℕ)
    (chunks : List String) : List ℤ :=
  0 :: (pagePercentages numPages ++ ((ingest api B chunks).progress ++
    (if (ingest api B chunks).outcome = none then [100] else [])))

/-- The partition of the chunk list into consecutive batches of at most `B`
texts, in the order the loop of src/App.tsx line 67 visits them
(`chunks.slice(i, i + B)` for `i = 0, B, 2B, ...`). -/
def batches (B : ℕ) : ℕ → List String → List (List String)
  | _, [] => []
  | 0, _ :: _ => []
  | fuel + 1, c :: rest => (c :: rest).take B :: batches B fuel ((c :: rest).drop B)

/-- `batches` with its sufficient iteration bound. -/
def batchesOf (B : ℕ) (chunks : List String) : List (List String) :=
  batches B chunks.length chunks

/-- The segments committed to the vector index by the first `j` (successful)
batches of a run: batch `l`'s records carry ids starting at the running count
of previously processed chunks, exactly as built by the loop's `add` calls. -/
def committedSegs (api : List String → List (List ℚ)) (B : ℕ) :
    ℕ → ℕ → List String → ℕ → List DocumentChunk
  | 0, _, _, _ => []
  | _ + 1, 0, _, _ => []
  | _ + 1, _ + 1, [], _ => []
  | j + 1, fuel + 1, c :: rest, i =>
    mkEmbedded i ((c :: rest).take B) (api ((c :: rest).take B)) ++
      committedSegs api B j fuel ((c :: rest).drop B) (i + ((c :: rest).take B).length)

/-- The ranking order of the specification (spec §4.3): descending similarity,
ties broken by original insertion position. -/
def specOrd (a b : ℕ × DocumentChunk × ℚ) : Prop :=
  b.2.2 < a.2.2 ∨ (a.2.2 = b.2.2 ∧ a.1 ≤ b.1)

/-- Insertion into a list sorted by `specOrd`: the element passes `y` exactly
when it must come strictly after `y` in the spec order. -/
def specInsert (x : ℕ × DocumentChunk × ℚ) :
    List (ℕ × DocumentChunk × ℚ) → List (ℕ × DocumentChunk × ℚ)
  | [] => [x]
  | y :: ys =>
    if x.2.2 < y.2.2 ∨ (x.2.2 = y.2.2 ∧ y.1 < x.1) then y :: specInsert x ys
    else x :: y :: ys

/-- Sorting by the spec order `specOrd`. -/
def specSort : List (ℕ × DocumentChunk × ℚ) → List (ℕ × DocumentChunk × ℚ)
  | [] => []
  | x :: xs => specInsert x (specSort xs)

/-- Forget the insertion positions. -/
def strip (l : List (ℕ × DocumentChunk × ℚ)) : List (DocumentChunk × ℚ) :=
  l.map fun t => t.2

/-- The stored segments paired with their similarity to the query and tagged
with their insertion position. -/
def indexedSims (sqrt : ℚ → ℚ) (chunks : List DocumentChunk) (q : List ℚ) :
    List (ℕ × DocumentChunk × ℚ) :=
  (chunks.map fun c => (c, cosineSimilarity sqrt q c.embedding)).enum

/-- Search as worded by the specification (spec §4.3 Ranking): sort all
segments by similarity descending, ties broken by original insertion order,
and return the first `min k count` entries. -/
def searchSpec (sqrt : ℚ → ℚ) (chunks : List DocumentChunk) (q : List ℚ)
    (topK : ℕ) : List DocumentChunk :=
  if chunks.length = 0 then []
  else ((specSort (indexedSims sqrt chunks q)).take (min topK chunks.length)).map
    fun t => t.2.1

/-- A concrete stand-in for `Math.sqrt` used by the evaluation witnesses: it
maps `0` to `0` and every positive rational to `1`, which matches the real
square root on the inputs `0` and `1` the witnesses use. -/
def sqrtW : ℚ → ℚ := fun x => if x ≤ 0 then 0 else 1

/-! ## Chunker round-trip (C3) -/

/-- Joining the tail chunks of the window loop, each with its first `overlap`
characters dropped, yields exactly the text suffix from `i + overlap` on,
provided the stride is positive and the iteration bound covers the remaining
text. -/
theorem rawChunksAux_join (text : List Char) (size step overlap : ℕ)
    (hstep : 0 < step) (hsize : overlap + step = size) :
    ∀ fuel i, text.length ≤ i + fuel →
      ((rawChunksAux text size step fuel i).map (List.drop overlap)).flatten
        = text.drop (i + overlap) := by
  intro fuel
  induction fuel with
  | zero =>
    intro i hi
    simp only [rawChunksAux, List.map_nil, List.flatten_nil]
    exact (List.drop_eq_nil_of_le (by omega)).symm
  | succ fuel ih =>
    intro i hi
    by_cases h : i < text.length
    · simp only [rawChunksAux]
      rw [if_pos h]
      simp only [List.map_cons, List.flatten_cons]
      rw [ih (i + step) (by omega)]
      rw [List.drop_take size overlap (text.drop i), List.drop_drop]
      have h1 : size - overlap = step := by omega
      have h2 : text.drop (i + step + overlap) = (text.drop (i + overlap)).drop step := by
        rw [List.drop_drop]
        congr 1
        omega
      rw [h1, h2, List.take_append_drop]
    · simp only [rawChunksAux]
      rw [if_neg h]
      simp only [List.map_nil, List.flatten_nil]
      exact (List.drop_eq_nil_of_le (by omega)).symm

/-- C3: for every text and every compatible pair `size > overlap ≥ 0`,
re-joining all chunks produced by the chunking loop of src/App.tsx lines
56-59 — the first chunk whole, each later chunk with its first `overlap`
characters dropped — recovers the text exactly.  (This is the raw window
sequence of the loop, before the emptiness post-filter of line 61: the
offset arithmetic round-trips.) -/
theorem chunk_roundtrip (text : List Char) (size overlap : ℕ) (h : overlap < size) :
    overlapJoin overlap (rawChunks text size overlap) = text := by
  unfold rawChunks
  cases text with
  | nil => rfl
  | cons a as =>
    simp only [List.length_cons, rawChunksAux]
    rw [if_pos (by simp)]
    simp only [overlapJoin]
    rw [rawChunksAux_join (a :: as) size (size - overlap) overlap (by omega) (by omega)
      as.length (0 + (size - overlap)) (by simp only [List.length_cons]; omega)]
    have h1 : 0 + (size - overlap) + overlap = size := by omega
    rw [h1, List.drop_zero, List.take_append_drop]

/-- Evaluation witness for `chunk_roundtrip` at text `"abcde"`, size 3,
overlap 1 (chunks `"abc"`, `"cde"`, `"e"`). -/
theorem chunk_roundtrip_witness :
    1 < 3 ∧ overlapJoin 1 (rawChunks "abcde".toList 3 1) = "abcde".toList :=
  ⟨by decide, chunk_roundtrip "abcde".toList 3 1 (by decide)⟩

/-! ## Mismatched dimensions (C1) -/

/-- C1 (amended): for vectors of different lengths `cosineSimilarity` returns
exactly `-1` — the minimum valid cosine value, not a sentinel strictly below
`-1`. -/
theorem cosine_mismatch_eq_neg_one (sqrt : ℚ → ℚ) (a b : List ℚ)
    (h : a.length ≠ b.length) : cosineSimilarity sqrt a b = -1 := by
  unfold cosineSimilarity
  rw [if_pos h]

/-- Evaluation witness for `cosine_mismatch_eq_neg_one`. -/
theorem cosine_mismatch_eq_neg_one_witness :
    ([(1 : ℚ)].length ≠ [(1 : ℚ), 0].length)
    ∧ cosineSimilarity sqrtW [1] [1, 0] = -1 :=
  ⟨by decide, cosine_mismatch_eq_neg_one sqrtW [1] [1, 0] (by decide)⟩

/-- C1 counterexample: the mismatch sentinel is exactly `-1`, not a value
strictly below `-1`, and it does not lose ranking ties against
dimensionally-valid segments: against query `[1]`, the valid segment
`"valid"` with embedding `[-1]` has similarity exactly `-1`, the same value
assigned to the dimensionally-mismatched segment `"mismatched"`; the stable
sort keeps the earlier-inserted mismatched segment first, so it wins the tie
and outranks the valid segment in the search result. -/
theorem mismatch_counterexample :
    cosineSimilarity sqrtW [1] [1, 0] = -1
    ∧ ¬ cosineSimilarity sqrtW [1] [1, 0] < -1
    ∧ cosineSimilarity sqrtW [1] [-1] = -1
    ∧ search sqrtW [⟨0, "mismatched", [1, 0]⟩, ⟨1, "valid", [-1]⟩] [1] 5
        = [⟨0, "mismatched", [1, 0]⟩, ⟨1, "valid", [-1]⟩] := by
  have h1 : cosineSimilarity sqrtW [1] [1, 0] = -1 := by
    unfold cosineSimilarity
    rw [if_pos (by decide)]
  have h2 : cosineSimilarity sqrtW [1] [-1] = -1 := by
    unfold cosineSimilarity sumSq dotProduct sqrtW
    norm_num
  refine ⟨h1, by rw [h1]; exact lt_irrefl _, h2, ?_⟩
  unfold search
  rw [if_neg (by decide)]
  simp only [List.map_cons, List.map_nil, h1, h2]
  simp [sortBySimDesc, insertBySim]

/-! ## Absent chunk-size validation (C2) -/

/-- C2 counterexample: run the chunking loop with `size = overlap = 200`
(stride `size - overlap = 0`) on a one-character text.  After 42 iterations
the loop state is still `some 0`: the loop has not exited, and since its body
has no validation and no error path (see `chunkLoopNext`), ingestion has
neither failed with any error nor reached the adapter — it simply never
terminates.  No `InvalidInput` check exists anywhere in `handleFileChange`:
the only pre-chunking checks are the file-extension and PDF-library checks,
which do not inspect the chunking constants. -/
theorem no_invalid_input_counterexample :
    (chunkLoopNext 1 (200 - 200))^[42] (some 0) = some 0 := by
  decide

/-- C2 (amended): the code performs no size/overlap validation and raises no
`InvalidInput` error.  The repository's constants satisfy
`CHUNK_OVERLAP < CHUNK_SIZE`, so the degenerate configuration never arises in
the shipped program; and were the chunking loop run with `size ≤ overlap` on
a nonempty text, its index would never advance past `0`, so the loop would
never terminate and ingestion would neither fail nor start any adapter
call. -/
theorem chunk_loop_no_validation :
    CHUNK_OVERLAP < CHUNK_SIZE
    ∧ ∀ size overlap textLen n : ℕ, size ≤ overlap → 0 < textLen →
        (chunkLoopNext textLen (size - overlap))^[n] (some 0) = some 0 := by
  refine ⟨by decide, fun size overlap textLen n hso hlen => ?_⟩
  have hstep : size - overlap = 0 := Nat.sub_eq_zero_of_le hso
  rw [hstep]
  induction n with
  | zero => rfl
  | succ n ih =>
    rw [Function.iterate_succ_apply,
      show chunkLoopNext textLen 0 (some 0) = some 0 from by simp [chunkLoopNext, hlen]]
    exact ih

/-- Evaluation witness for `chunk_loop_no_validation` at
`size = overlap = 200`, a one-character text, 7 iterations. -/
theorem chunk_loop_no_validation_witness :
    (200 ≤ 200 ∧ 0 < 1) ∧ (chunkLoopNext 1 (200 - 200))^[7] (some 0) = some 0 :=
  ⟨by decide, chunk_loop_no_validation.2 200 200 1 7 (by decide) (by decide)⟩

/-! ## Zero magnitude (C8) -/

/-- C8: for equal-length vectors, if the magnitude of either one is exactly
zero then `cosineSimilarity` returns exactly `0`.  In this total model there
is no NaN and no thrown error: the zero-magnitude guard precedes the
division, so the degenerate quotient is never formed. -/
theorem cosine_zero_magnitude (sqrt : ℚ → ℚ) (a b : List ℚ)
    (hlen : a.length = b.length)
    (hmag : magnitude sqrt a = 0 ∨ magnitude sqrt b = 0) :
    cosineSimilarity sqrt a b = 0 := by
  unfold cosineSimilarity
  rw [if_neg (by omega), if_pos (by simpa [magnitude] using hmag)]

/-- Evaluation witness for `cosine_zero_magnitude`: the zero vector `[0]`
against `[3]`. -/
theorem cosine_zero_magnitude_witness :
    (([(0 : ℚ)].length = [(3 : ℚ)].length)
      ∧ (magnitude sqrtW [0] = 0 ∨ magnitude sqrtW [3] = 0))
    ∧ cosineSimilarity sqrtW [0] [3] = 0 := by
  have hm : magnitude sqrtW [(0 : ℚ)] = 0 := by simp [magnitude, sumSq, sqrtW]
  exact ⟨⟨rfl, Or.inl hm⟩, cosine_zero_magnitude sqrtW [0] [3] rfl (Or.inl hm)⟩

/-! ## Query pipeline (C7) -/

/-- C7: `handleSendMessage` embeds the question with task type
`RETRIEVAL_QUERY`, calls `search` with that embedding and `topK = 5`, and
joins the returned segments' texts with the fixed dashed separator in ranked
order; at most 5 segments are joined, and on an index holding zero segments
the assembled context is the empty string, not an error. -/
theorem answerContext_spec (sqrt : ℚ → ℚ) (embedOne : String → TaskType → List ℚ)
    (db : InMemoryVectorDB) (question : String) :
    answerContext sqrt embedOne db question =
      String.intercalate CONTEXT_SEPARATOR
        ((search sqrt db.chunks (embedOne question TaskType.RETRIEVAL_QUERY) 5).map
          DocumentChunk.text)
    ∧ (search sqrt db.chunks (embedOne question TaskType.RETRIEVAL_QUERY) 5).length ≤ 5
    ∧ answerContext sqrt embedOne ⟨[]⟩ question = "" := by
  refine ⟨rfl, ?_, rfl⟩
  unfold search
  split
  · simp
  · rw [List.length_map]
    exact List.length_take_le 5 _

/-! ## Search purity (C10) -/

/-- C10: `search` never modifies the index.  The method reads `this.chunks`,
builds and sorts a fresh local array, and performs no assignment to the
state, so after a call the stored segments (all fields, in order) are
unchanged, `isReady()` is unchanged, and a second identical call on the
resulting state returns the identical result. -/
theorem search_preserves_index (sqrt : ℚ → ℚ) (db : InMemoryVectorDB)
    (q : List ℚ) (k : ℕ) :
    (db.searchM sqrt q k).2.chunks = db.chunks
    ∧ (db.searchM sqrt q k).2 = db
    ∧ (db.searchM sqrt q k).2.isReady = db.isReady
    ∧ ((db.searchM sqrt q k).2.searchM sqrt q k).1 = (db.searchM sqrt q k).1 :=
  ⟨rfl, rfl, rfl, rfl⟩

/-! ## Search ranking (C6) -/

/-- The spec order is transitive. -/
theorem specOrd_trans (a b c : ℕ × DocumentChunk × ℚ) :
    specOrd a b → specOrd b c → specOrd a c := by
  rintro (h | ⟨he, hi⟩) (h2 | ⟨he2, hi2⟩)
  · exact Or.inl (lt_trans h2 h)
  · exact Or.inl (he2 ▸ h)
  · exact Or.inl (he.symm ▸ h2)
  · exact Or.inr ⟨he.trans he2, le_trans hi hi2⟩

/-- `specInsert` permutes. -/
theorem specInsert_perm (x : ℕ × DocumentChunk × ℚ) :
    ∀ l, List.Perm (specInsert x l) (x :: l) := by
  intro l
  induction l with
  | nil => exact List.Perm.refl _
  | cons y ys ih =>
    simp only [specInsert]
    by_cases hc : x.2.2 < y.2.2 ∨ (x.2.2 = y.2.2 ∧ y.1 < x.1)
    · rw [if_pos hc]
      exact (ih.cons y).trans (List.Perm.swap x y ys)
    · rw [if_neg hc]

/-- `specSort` permutes. -/
theorem specSort_perm : ∀ l, List.Perm (specSort l) l := by
  intro l
  induction l with
  | nil => exact List.Perm.refl _
  | cons x xs ih => exact (specInsert_perm x (specSort xs)).trans (ih.cons x)

/-- `specInsert` preserves sortedness in the spec order. -/
theorem pairwise_specInsert (x : ℕ × DocumentChunk × ℚ) :
    ∀ l, List.Pairwise specOrd l → List.Pairwise specOrd (specInsert x l) := by
  intro l
  induction l with
  | nil => exact fun _ => List.pairwise_singleton _ _
  | cons y ys ih =>
    intro hp
    rcases List.pairwise_cons.mp hp with ⟨hy, hys⟩
    simp only [specInsert]
    by_cases hc : x.2.2 < y.2.2 ∨ (x.2.2 = y.2.2 ∧ y.1 < x.1)
    · rw [if_pos hc]
      refine List.pairwise_cons.mpr ⟨?_, ih hys⟩
      intro z hz
      rcases List.mem_cons.mp ((specInsert_perm x ys).mem_iff.mp hz) with rfl | hz'
      · rcases hc with h | ⟨he, hi⟩
        · exact Or.inl h
        · exact Or.inr ⟨he.symm, Nat.le_of_lt hi⟩
      · exact hy z hz'
    · rw [if_neg hc]
      push_neg at hc
      have hxy : specOrd x y := by
        rcases hc with ⟨h1, h2⟩
        rcases lt_or_eq_of_le h1 with h | h
        · exact Or.inl h
        · exact Or.inr ⟨h.symm, h2 h.symm⟩
      refine List.pairwise_cons.mpr ⟨?_, hp⟩
      intro z hz
      rcases List.mem_cons.mp hz with rfl | hz'
      · exact hxy
      · exact specOrd_trans x y z hxy (hy z hz')

/-- `specSort` sorts in the spec order: descending similarity, ties by
insertion position. -/
theorem pairwise_specSort : ∀ l, List.Pairwise specOrd (specSort l) := by
  intro l
  induction l with
  | nil => exact List.Pairwise.nil
  | cons x xs ih => exact pairwise_specInsert x (specSort xs) ih

/-- Positions in `enumFrom n` are at least `n`. -/
theorem fst_ge_of_mem_enumFrom {α : Type} {p : ℕ × α} :
    ∀ (l : List α) (n : ℕ), p ∈ List.enumFrom n l → n ≤ p.1 := by
  intro l
  induction l with
  | nil =>
    intro n h
    simp [List.enumFrom] at h
  | cons a as ih =>
    intro n h
    simp only [List.enumFrom] at h
    rcases List.mem_cons.mp h with rfl | h
    · exact le_refl _
    · exact le_trans (Nat.le_succ n) (ih (n + 1) h)

/-- When the inserted element's position is below every position in the list,
spec insertion and the code's similarity-keyed insertion coincide: the
position tiebreak can never fire, because on a similarity tie the inserted
element (the earlier one) already stops. -/
theorem strip_cons (y : ℕ × DocumentChunk × ℚ) (l : List (ℕ × DocumentChunk × ℚ)) :
    strip (y :: l) = y.2 :: strip l := rfl

theorem strip_specInsert (x : ℕ × DocumentChunk × ℚ) :
    ∀ l : List (ℕ × DocumentChunk × ℚ), (∀ y ∈ l, x.1 < y.1) →
      strip (specInsert x l) = insertBySim x.2 (strip l) := by
  intro l
  induction l with
  | nil => exact fun _ => rfl
  | cons y ys ih =>
    intro hx
    have hy : x.1 < y.1 := hx y (List.mem_cons_self y ys)
    simp only [specInsert]
    by_cases hc : x.2.2 < y.2.2
    · rw [if_pos (Or.inl hc)]
      rw [strip_cons, strip_cons]
      rw [ih fun z hz => hx z (List.mem_cons_of_mem y hz)]
      simp only [insertBySim]
      rw [if_pos hc]
    · rw [if_neg (by rintro (h | ⟨_, hlt⟩) <;> [exact hc h; omega])]
      rw [strip_cons, strip_cons]
      simp only [insertBySim]
      rw [if_neg hc]

/-- Stripping positions after spec sorting an enumerated list gives exactly
the code's similarity sort. -/
theorem strip_specSort_enumFrom :
    ∀ (l : List (DocumentChunk × ℚ)) (j : ℕ),
      strip (specSort (List.enumFrom j l)) = sortBySimDesc l := by
  intro l
  induction l with
  | nil => exact fun _ => rfl
  | cons p ps ih =>
    intro j
    simp only [List.enumFrom, specSort]
    rw [strip_specInsert (j, p) _ fun y hy =>
      Nat.lt_of_succ_le (fst_ge_of_mem_enumFrom ps (j + 1) ((specSort_perm _).mem_iff.mp hy))]
    rw [ih (j + 1)]
    simp only [sortBySimDesc]

/-- C6: for every index state, query vector and `k ≥ 0`, `search` returns
exactly the first `min k n` entries of the stored segments sorted by cosine
similarity descending with ties kept in insertion order (`searchSpec`, worded
from the spec); moreover that spec ordering really is a sorted permutation of
the stored segments.  For `k ≥ n` the `min` is `n`, so all segments are
returned so ordered. -/
theorem search_matches_spec (sqrt : ℚ → ℚ) (chunks : List DocumentChunk)
    (q : List ℚ) (k : ℕ) :
    search sqrt chunks q k = searchSpec sqrt chunks q k
    ∧ List.Pairwise specOrd (specSort (indexedSims sqrt chunks q))
    ∧ List.Perm (specSort (indexedSims sqrt chunks q)) (indexedSims sqrt chunks q) := by
  refine ⟨?_, pairwise_specSort _, specSort_perm _⟩
  unfold search searchSpec
  by_cases hc : chunks.length = 0
  · rw [if_pos hc, if_pos hc]
  · rw [if_neg hc, if_neg hc]
    have hlen : (specSort (indexedSims sqrt chunks q)).length = chunks.length := by
      rw [(specSort_perm _).length_eq]
      unfold indexedSims
      rw [List.enum_length, List.length_map]
    have htake : (specSort (indexedSims sqrt chunks q)).take (min k chunks.length)
        = (specSort (indexedSims sqrt chunks q)).take k := by
      rw [← hlen, ← List.take_take, List.take_length]
    rw [htake]
    have hstrip : strip (specSort (indexedSims sqrt chunks q))
        = sortBySimDesc (chunks.map fun c => (c, cosineSimilarity sqrt q c.embedding)) := by
      unfold indexedSims
      rw [show (chunks.map fun c => (c, cosineSimilarity sqrt q c.embedding)).enum
          = List.enumFrom 0 (chunks.map fun c => (c, cosineSimilarity sqrt q c.embedding)) from rfl]
      exact strip_specSort_enumFrom _ 0
    calc ((sortBySimDesc (chunks.map fun c => (c, cosineSimilarity sqrt q c.embedding))).take
            k).map Prod.fst
        = ((strip (specSort (indexedSims sqrt chunks q))).take k).map Prod.fst := by rw [hstrip]
      _ = ((specSort (indexedSims sqrt chunks q)).take k).map fun t => t.2.1 := by
          unfold strip
          rw [← List.map_take, List.map_map]
          rfl

/-! ## Ingestion loop unfolding lemmas -/

theorem generateEmbeddings_ok (api : List String → List (List ℚ)) (texts : List String)
    (h : (api texts).length = texts.length) :
    generateEmbeddings api texts = Except.ok (api texts) := by
  unfold generateEmbeddings
  rw [if_pos h]

theorem generateEmbeddings_err (api : List String → List (List ℚ)) (texts : List String)
    (h : (api texts).length ≠ texts.length) :
    generateEmbeddings api texts = Except.error FAILED_BATCH_MSG := by
  unfold generateEmbeddings
  rw [if_neg h]

theorem ingestLoopAux_nil (api : List String → List (List ℚ)) (B total fuel i : ℕ) :
    ingestLoopAux api B total fuel [] i = ⟨[], [], [], none⟩ := by
  cases fuel <;> rfl

theorem ingestLoopAux_cons_ok (api : List String → List (List ℚ)) (B total : ℕ)
    (c : String) (rest : List String) (i fuel : ℕ)
    (h : (api ((c :: rest).take B)).length = ((c :: rest).take B).length) :
    ingestLoopAux api B total (fuel + 1) (c :: rest) i =
      ⟨mkEmbedded i ((c :: rest).take B) (api ((c :: rest).take B))
          ++ (ingestLoopAux api B total fuel ((c :: rest).drop B)
              (i + ((c :: rest).take B).length)).db,
        (c :: rest).take B :: (ingestLoopAux api B total fuel ((c :: rest).drop B)
              (i + ((c :: rest).take B).length)).calls,
        batchPct total (i + ((c :: rest).take B).length)
          :: (ingestLoopAux api B total fuel ((c :: rest).drop B)
              (i + ((c :: rest).take B).length)).progress,
        (ingestLoopAux api B total fuel ((c :: rest).drop B)
              (i + ((c :: rest).take B).length)).outcome⟩ := by
  simp only [ingestLoopAux, generateEmbeddings_ok api _ h]

theorem ingestLoopAux_cons_err (api : List String → List (List ℚ)) (B total : ℕ)
    (c : String) (rest : List String) (i fuel : ℕ)
    (h : (api ((c :: rest).take B)).length ≠ ((c :: rest).take B).length) :
    ingestLoopAux api B total (fuel + 1) (c :: rest) i =
      ⟨[], [(c :: rest).take B], [], some FAILED_BATCH_MSG⟩ := by
  simp only [ingestLoopAux, generateEmbeddings_err api _ h]

theorem mkEmbedded_length (i : ℕ) (batch : List String) (embs : List (List ℚ)) :
    (mkEmbedded i batch embs).length = min batch.length embs.length := by
  unfold mkEmbedded
  rw [List.length_map, List.enum_length, List.length_zip]

/-! ## Batching on success (C4) -/

/-- One recursion step of the ceiling division `⌈len / B⌉ = (len + B - 1) / B`. -/
theorem ceil_div_step (len B : ℕ) (hB : 0 < B) (hlen : 0 < len) :
    (len + B - 1) / B = (len - B + B - 1) / B + 1 := by
  obtain ⟨l, rfl⟩ : ∃ l, len = l + 1 := ⟨len - 1, by omega⟩
  rcases le_or_lt B (l + 1) with h | h
  · have e1 : l + 1 + B - 1 = l + B := by omega
    have e2 : l + 1 - B + B - 1 = l := by omega
    rw [e1, e2, Nat.add_div_right l hB]
  · have e2 : l + 1 - B = 0 := by omega
    have e3 : 0 + B - 1 = B - 1 := by omega
    have e1 : l + 1 + B - 1 = l + B := by omega
    rw [e2, e3, Nat.div_eq_of_lt (show B - 1 < B by omega), e1, Nat.add_div_right l hB,
      Nat.div_eq_of_lt (show l < B by omega)]

/-- Invariant proof for C4: a successful run issues `⌈len / B⌉` adapter calls
of at most `B` texts each and adds one segment per chunk. -/
theorem ingestLoopAux_success (api : List String → List (List ℚ)) (B total : ℕ)
    (hB : 0 < B) :
    ∀ fuel chunks i, chunks.length ≤ fuel →
      (ingestLoopAux api B total fuel chunks i).outcome = none →
      (ingestLoopAux api B total fuel chunks i).calls.length = (chunks.length + B - 1) / B
      ∧ (∀ c ∈ (ingestLoopAux api B total fuel chunks i).calls, c.length ≤ B)
      ∧ (ingestLoopAux api B total fuel chunks i).db.length = chunks.length := by
  intro fuel
  induction fuel with
  | zero =>
    intro chunks i hf _
    have hch : chunks = [] := List.eq_nil_of_length_eq_zero (by omega)
    subst hch
    rw [ingestLoopAux_nil]
    refine ⟨?_, by simp, rfl⟩
    simp only [List.length_nil]
    rw [Nat.div_eq_of_lt (by omega)]
  | succ fuel ih =>
    intro chunks i hf hout
    cases chunks with
    | nil =>
      rw [ingestLoopAux_nil]
      refine ⟨?_, by simp, rfl⟩
      simp only [List.length_nil]
      rw [Nat.div_eq_of_lt (by omega)]
    | cons c rest =>
      by_cases hc : (api ((c :: rest).take B)).length = ((c :: rest).take B).length
      · rw [ingestLoopAux_cons_ok api B total c rest i fuel hc] at hout ⊢
        have hdlen : ((c :: rest).drop B).length = (c :: rest).length - B :=
          List.length_drop B (c :: rest)
        obtain ⟨h1, h2, h3⟩ := ih ((c :: rest).drop B) (i + ((c :: rest).take B).length)
          (by rw [hdlen]; simp only [List.length_cons] at hf ⊢; omega) hout
        refine ⟨?_, ?_, ?_⟩
        · simp only [List.length_cons] at h1 ⊢
          rw [h1, hdlen]
          simp only [List.length_cons]
          rw [ceil_div_step (rest.length + 1) B hB (by omega)]
        · intro b hb
          rcases List.mem_cons.mp hb with rfl | hb'
          · rw [List.length_take]
            omega
          · exact h2 b hb'
        · rw [List.length_append, mkEmbedded_length, h3, hc, hdlen, List.length_take]
          simp only [List.length_cons]
          omega
      · rw [ingestLoopAux_cons_err api B total c rest i fuel hc] at hout
        exact absurd hout (by simp)

/-- C4: for every raw chunk sequence, the filtered chunks (trimmed content
non-empty) are ingested — on success — with exactly `⌈N / B⌉` adapter calls
(`N` the filtered count, `B > 0` the batch size), each call carrying at most
`B` texts, and the vector index ends holding exactly as many segments as
there are chunks whose trimmed content is non-empty. -/
theorem ingest_batching (api : List String → List (List ℚ)) (B : ℕ)
    (rawList : List String) (hB : 0 < B)
    (hsucc : (ingest api B (rawList.filter keepChunk)).outcome = none) :
    (ingest api B (rawList.filter keepChunk)).calls.length
        = ((rawList.filter keepChunk).length + B - 1) / B
    ∧ (∀ c ∈ (ingest api B (rawList.filter keepChunk)).calls, c.length ≤ B)
    ∧ (ingest api B (rawList.filter keepChunk)).db.length = rawList.countP keepChunk := by
  unfold ingest at hsucc ⊢
  obtain ⟨h1, h2, h3⟩ :=
    ingestLoopAux_success api B (rawList.filter keepChunk).length hB
      (rawList.filter keepChunk).length (rawList.filter keepChunk) 0 (le_refl _) hsucc
  exact ⟨h1, h2, by rw [h3]; exact (List.countP_eq_length_filter _ _).symm⟩

/-- Evaluation witness for `ingest_batching`: four raw chunks, one
whitespace-only, batch size 2: two adapter calls, three stored segments. -/
theorem ingest_batching_witness :
    (0 < 2
      ∧ (ingest (fun ts => ts.map fun _ => [(1 : ℚ)]) 2
          (["a", " ", "b", "c"].filter keepChunk)).outcome = none)
    ∧ (ingest (fun ts => ts.map fun _ => [(1 : ℚ)]) 2
          (["a", " ", "b", "c"].filter keepChunk)).calls.length
        = ((["a", " ", "b", "c"].filter keepChunk).length + 2 - 1) / 2 :=
  ⟨⟨by decide, by decide⟩,
    (ingest_batching (fun ts => ts.map fun _ => [(1 : ℚ)]) 2 ["a", " ", "b", "c"]
      (by decide) (by decide)).1⟩

/-! ## Failure at a batch (C5) -/

/-- Invariant proof for C5: if the first `j` batches succeed and batch `j`
returns a mismatched vector count, the run fails with the batch-failure
message, issues exactly the first `j + 1` adapter calls, and the index holds
exactly the segments committed by the first `j` batches. -/
theorem ingestLoopAux_fail (api : List String → List (List ℚ)) (B total : ℕ) :
    ∀ fuel chunks i j,
      (∀ b ∈ (batches B fuel chunks).take j, (api b).length = b.length) →
      j < (batches B fuel chunks).length →
      (api ((batches B fuel chunks).getD j [])).length
          ≠ ((batches B fuel chunks).getD j []).length →
      (ingestLoopAux api B total fuel chunks i).outcome = some FAILED_BATCH_MSG
      ∧ (ingestLoopAux api B total fuel chunks i).calls = (batches B fuel chunks).take (j + 1)
      ∧ (ingestLoopAux api B total fuel chunks i).db = committedSegs api B j fuel chunks i := by
  intro fuel
  induction fuel with
  | zero =>
    intro chunks i j _ hj _
    exfalso
    cases chunks <;> simp [batches] at hj
  | succ fuel ih =>
    intro chunks i j hok hj hfail
    cases chunks with
    | nil =>
      exfalso
      simp [batches] at hj
    | cons c rest =>
      cases j with
      | zero =>
        have hfail' : (api ((c :: rest).take B)).length ≠ ((c :: rest).take B).length := by
          simpa [batches] using hfail
        rw [ingestLoopAux_cons_err api B total c rest i fuel hfail']
        refine ⟨rfl, ?_, rfl⟩
        simp [batches]
      | succ j =>
        have hok0 : (api ((c :: rest).take B)).length = ((c :: rest).take B).length :=
          hok ((c :: rest).take B)
            (by simp only [batches, List.take_succ_cons]; exact List.mem_cons_self _ _)
        rw [ingestLoopAux_cons_ok api B total c rest i fuel hok0]
        obtain ⟨ho, hcalls, hdb⟩ := ih ((c :: rest).drop B)
          (i + ((c :: rest).take B).length) j
          (fun b hb => hok b
            (by simp only [batches, List.take_succ_cons]; exact List.mem_cons_of_mem _ hb))
          (by simpa [batches] using hj)
          (by simpa [batches] using hfail)
        refine ⟨ho, ?_, ?_⟩
        · simp only [batches, List.take_succ_cons]
          rw [hcalls]
        · simp only [committedSegs]
          rw [hdb]

/-- C5: if, for some batch, the adapter returns a vector sequence whose
length differs from that batch's text count — all earlier batches succeeding
— then ingestion fails with the embedding-failure error, no segment from the
failing batch is added, no further batch is issued (the calls are exactly the
first `j + 1` batches), and all segments committed by earlier batches remain
stored, with no rollback. -/
theorem ingest_failure_halts (api : List String → List (List ℚ)) (B : ℕ)
    (chunks : List String) (j : ℕ)
    (hok : ∀ b ∈ (batchesOf B chunks).take j, (api b).length = b.length)
    (hj : j < (batchesOf B chunks).length)
    (hfail : (api ((batchesOf B chunks).getD j [])).length
        ≠ ((batchesOf B chunks).getD j []).length) :
    (ingest api B chunks).outcome = some FAILED_BATCH_MSG
    ∧ (ingest api B chunks).calls = (batchesOf B chunks).take (j + 1)
    ∧ (ingest api B chunks).db = committedSegs api B j chunks.length chunks 0 := by
  unfold ingest
  unfold batchesOf at hok hj hfail
  exact ingestLoopAux_fail api B chunks.length chunks.length chunks 0 j hok hj hfail

/-- Evaluation witness for `ingest_failure_halts`: two chunks, batch size 1,
an adapter that answers the first batch correctly and returns an empty vector
list for the second. -/
theorem ingest_failure_halts_witness :
    ((∀ b ∈ (batchesOf 1 ["a", "b"]).take 1,
        ((fun ts => if ts = ["b"] then ([] : List (List ℚ)) else [[1]]) b).length = b.length)
      ∧ 1 < (batchesOf 1 ["a", "b"]).length
      ∧ ((fun ts => if ts = ["b"] then ([] : List (List ℚ)) else [[1]])
            ((batchesOf 1 ["a", "b"]).getD 1 [])).length
          ≠ ((batchesOf 1 ["a", "b"]).getD 1 []).length)
    ∧ (ingest (fun ts => if ts = ["b"] then ([] : List (List ℚ)) else [[1]]) 1
        ["a", "b"]).outcome = some FAILED_BATCH_MSG :=
  ⟨⟨by decide, by decide, by decide⟩,
    (ingest_failure_halts (fun ts => if ts = ["b"] then ([] : List (List ℚ)) else [[1]])
      1 ["a", "b"] 1 (by decide) (by decide) (by decide)).1⟩

/-! ## Progress monotonicity (C9) -/

theorem roundMono {x y : ℚ} (h : x ≤ y) : round x ≤ round y := by
  rw [round_eq, round_eq]
  exact Int.floor_mono (by linarith)

/-- The percentage argument `(p / t) * m` is monotone in `p` (for `m ≥ 0`),
including the degenerate `t = 0` case where both sides are `0`. -/
theorem ratPct_mono (t : ℕ) (m : ℚ) (hm : 0 ≤ m) {p q : ℕ} (h : p ≤ q) :
    (p : ℚ) / (t : ℚ) * m ≤ (q : ℚ) / (t : ℚ) * m := by
  rcases Nat.eq_zero_or_pos t with rfl | ht
  · simp
  · have h' : (p : ℚ) / t ≤ (q : ℚ) / t := by
      gcongr
    exact mul_le_mul_of_nonneg_right h' hm

theorem ratPct_nonneg (t p : ℕ) (m : ℚ) (hm : 0 ≤ m) : 0 ≤ (p : ℚ) / (t : ℚ) * m := by
  positivity

theorem ratPct_le (t p : ℕ) (m : ℚ) (hm : 0 ≤ m) (h : p ≤ t) :
    (p : ℚ) / (t : ℚ) * m ≤ m := by
  rcases Nat.eq_zero_or_pos t with rfl | ht
  · have : p = 0 := by omega
    subst this
    simpa using hm
  · have ht' : (0 : ℚ) < t := by exact_mod_cast ht
    have h1 : (p : ℚ) / t ≤ 1 := by
      rw [div_le_one ht']
      exact_mod_cast h
    calc (p : ℚ) / t * m ≤ 1 * m := mul_le_mul_of_nonneg_right h1 hm
      _ = m := one_mul m

theorem batchPct_mono (total : ℕ) {p q : ℕ} (h : p ≤ q) :
    batchPct total p ≤ batchPct total q := by
  unfold batchPct
  have := roundMono (ratPct_mono total 85 (by norm_num) h)
  omega

theorem round_nonneg' {x : ℚ} (hx : 0 ≤ x) : 0 ≤ round x := by
  have h := roundMono hx
  rwa [round_zero] at h

theorem batchPct_ge_15 (total p : ℕ) : 15 ≤ batchPct total p := by
  unfold batchPct
  have h0 : 0 ≤ round ((p : ℚ) / (total : ℚ) * 85) := round_nonneg' (by positivity)
  omega

theorem batchPct_le_100 (total p : ℕ) (h : p ≤ total) : batchPct total p ≤ 100 := by
  unfold batchPct
  have h1 : round ((p : ℚ) / (total : ℚ) * 85) ≤ round ((85 : ℚ)) :=
    roundMono (ratPct_le total p 85 (by norm_num) h)
  have h2 : round ((85 : ℚ)) = 85 := by
    rw [show (85 : ℚ) = ((85 : ℕ) : ℚ) by norm_num, round_natCast]
    norm_num
  omega

/-- Invariant proof for C9: the batch-phase progress list is non-decreasing,
bounded below by the percentage at the entry offset and above by `100`. -/
theorem ingest_progress_props (api : List String → List (List ℚ)) (B total : ℕ)
    (hB : 0 < B) :
    ∀ fuel chunks i, chunks.length ≤ fuel → i + chunks.length ≤ total →
      List.Pairwise (· ≤ ·) (ingestLoopAux api B total fuel chunks i).progress
      ∧ ∀ x ∈ (ingestLoopAux api B total fuel chunks i).progress,
          batchPct total i ≤ x ∧ x ≤ 100 := by
  intro fuel
  induction fuel with
  | zero =>
    intro chunks i hf _
    have hch : chunks = [] := List.eq_nil_of_length_eq_zero (by omega)
    subst hch
    rw [ingestLoopAux_nil]
    exact ⟨List.Pairwise.nil, by simp⟩
  | succ fuel ih =>
    intro chunks i hf htot
    cases chunks with
    | nil =>
      rw [ingestLoopAux_nil]
      exact ⟨List.Pairwise.nil, by simp⟩
    | cons c rest =>
      by_cases hc : (api ((c :: rest).take B)).length = ((c :: rest).take B).length
      · rw [ingestLoopAux_cons_ok api B total c rest i fuel hc]
        have hm : ((c :: rest).take B).length = min B (c :: rest).length :=
          List.length_take B (c :: rest)
        have hdlen : ((c :: rest).drop B).length = (c :: rest).length - B :=
          List.length_drop B (c :: rest)
        have hlen1 : 0 < (c :: rest).length := by simp
        obtain ⟨hp, hb⟩ := ih ((c :: rest).drop B) (i + ((c :: rest).take B).length)
          (by rw [hdlen]; simp only [List.length_cons] at hf ⊢; omega)
          (by rw [hdlen, hm]; simp only [List.length_cons] at htot ⊢; omega)
        refine ⟨List.pairwise_cons.mpr ⟨fun x hx => (hb x hx).1, hp⟩, ?_⟩
        intro x hx
        rcases List.mem_cons.mp hx with rfl | hx'
        · exact ⟨batchPct_mono total (by omega),
            batchPct_le_100 total _
              (by rw [hm]; simp only [List.length_cons] at htot ⊢; omega)⟩
        · obtain ⟨h1, h2⟩ := hb x hx'
          exact ⟨le_trans (batchPct_mono total (by omega)) h1, h2⟩
      · rw [ingestLoopAux_cons_err api B total c rest i fuel hc]
        exact ⟨List.Pairwise.nil, by simp⟩

theorem pagePct_mono (n : ℕ) {i j : ℕ} (h : i ≤ j) : pagePct n i ≤ pagePct n j :=
  roundMono (ratPct_mono n 15 (by norm_num) h)

theorem pagePct_nonneg (n i : ℕ) : 0 ≤ pagePct n i :=
  round_nonneg' (by positivity)

theorem pagePct_le_15 (n i : ℕ) (h : i ≤ n) : pagePct n i ≤ 15 := by
  have h1 : round ((i : ℚ) / (n : ℚ) * 15) ≤ round ((15 : ℚ)) :=
    roundMono (ratPct_le n i 15 (by norm_num) h)
  have h2 : round ((15 : ℚ)) = 15 := by
    rw [show (15 : ℚ) = ((15 : ℕ) : ℚ) by norm_num, round_natCast]
    norm_num
  unfold pagePct
  omega

theorem pages_pairwise (n : ℕ) : List.Pairwise (· ≤ ·) (pagePercentages n) := by
  unfold pagePercentages
  rw [List.pairwise_map]
  exact (List.pairwise_lt_range n).imp fun h => pagePct_mono n (by omega)

theorem pages_bounds (n : ℕ) : ∀ x ∈ pagePercentages n, 0 ≤ x ∧ x ≤ 15 := by
  intro x hx
  unfold pagePercentages at hx
  obtain ⟨i, hi, rfl⟩ := List.mem_map.mp hx
  exact ⟨pagePct_nonneg n (i + 1), pagePct_le_15 n (i + 1) (List.mem_range.mp hi)⟩

/-- C9: within a single ingestion run the emitted progress percentages are
monotonically non-decreasing — the initial `0`, then the per-page extraction
values `round((i / numPages) * 15)`, then `15 + round(85 * processed / total)`
per successful batch, then (when every batch succeeded) the final `100`. -/
theorem progress_monotone (api : List String → List (List ℚ)) (B numPages : ℕ)
    (chunks : List String) (hB : 0 < B) :
    List.Pairwise (· ≤ ·) (runProgress api B numPages chunks) := by
  unfold runProgress
  have hprog := ingest_progress_props api B chunks.length hB chunks.length chunks 0
    (le_refl _) (by omega)
  have hprog15 : ∀ x ∈ (ingest api B chunks).progress, 15 ≤ x ∧ x ≤ 100 := by
    intro x hx
    obtain ⟨h1, h2⟩ := hprog.2 x hx
    exact ⟨le_trans (batchPct_ge_15 chunks.length 0) h1, h2⟩
  have htail : ∀ x ∈ (if (ingest api B chunks).outcome = none then [(100 : ℤ)] else []),
      x = 100 := by
    split
    · intro x hx
      rcases List.mem_singleton.mp hx with rfl
      rfl
    · intro x hx
      exact absurd hx (List.not_mem_nil x)
  have htailpw : List.Pairwise (· ≤ ·)
      (if (ingest api B chunks).outcome = none then [(100 : ℤ)] else []) := by
    split
    · exact List.pairwise_singleton _ _
    · exact List.Pairwise.nil
  refine List.pairwise_cons.mpr ⟨?_, ?_⟩
  · intro x hx
    rcases List.mem_append.mp hx with hx | hx
    · exact (pages_bounds numPages x hx).1
    · rcases List.mem_append.mp hx with hx | hx
      · exact le_trans (by norm_num) (hprog15 x hx).1
      · rw [htail x hx]
        norm_num
  · refine List.pairwise_append.mpr ⟨pages_pairwise numPages, ?_, ?_⟩
    · refine List.pairwise_append.mpr ⟨hprog.1, htailpw, ?_⟩
      intro a ha b hb
      rw [htail b hb]
      exact (hprog15 a ha).2
    · intro a ha b hb
      have ha15 : a ≤ 15 := (pages_bounds numPages a ha).2
      rcases List.mem_append.mp hb with hb | hb
      · exact le_trans ha15 (hprog15 b hb).1
      · rw [htail b hb]
        omega

/-- Evaluation witness for `progress_monotone`: three chunks, batch size 2,
two pages, an adapter answering every batch. -/
theorem progress_monotone_witness :
    0 < 2 ∧ List.Pairwise (· ≤ ·)
      (runProgress (fun ts => ts.map fun _ => [(1 : ℚ)]) 2 2 ["a", "b", "c"]) :=
  ⟨by decide, progress_monotone (fun ts => ts.map fun _ => [(1 : ℚ)]) 2 2 ["a", "b", "c"]
    (by decide)⟩

end RagApp
